import Mathlib

/-!
Verification development for the dreamhost-ddns repository (a dynamic-DNS
updater written in Rust). The definitions below are a shallow embedding of
the record data model (`src/dreamhost.rs`), the reconciliation loop and the
backoff scheduler (`src/main.rs`). HTTP transport, JSON wire decoding up to
the `serde_json::Value` tree, the syslog sink and the DNS resolver transport
are collaborators outside the repository; they appear only as parameters
(a decoded JSON tree, an oracle of mutation outcomes, a resolver result).
-/

namespace DDNS

/-- Model of `std::net::IpAddr`: a parsed network address, either IPv4 or
IPv6. The numeric payload is abstract (a natural); the code never inspects
it, it only compares addresses for equality and derives the address family. -/
inductive IpAddr where
  | V4 (a : Nat)
  | V6 (a : Nat)
deriving DecidableEq

/-- Embeds `enum RecordKind { A, AAAA }` from src/dreamhost.rs. -/
inductive RecordKind where
  | A
  | AAAA
deriving DecidableEq

/-- Embeds `impl Display for RecordKind` (src/dreamhost.rs lines 24-37). -/
def RecordKind.toStr : RecordKind → String
  | .A => "A"
  | .AAAA => "AAAA"

/-- Embeds `impl FromStr for RecordKind` (src/dreamhost.rs lines 39-48). -/
def RecordKind.fromStr (s : String) : Except String RecordKind :=
  match s with
  | "A" => Except.ok RecordKind.A
  | "AAAA" => Except.ok RecordKind.AAAA
  | _ => Except.error "Unmatched RecordKind"

/-- Embeds `struct Record` (src/dreamhost.rs lines 50-57): `value` is the
parsed address, `r_type` the A/AAAA kind, `svalue` the remote authority's own
textual form of the value (empty on locally synthesized records). -/
structure Record where
  value : IpAddr
  r_type : RecordKind
  svalue : String
deriving DecidableEq

/-- Embeds `Record::new` (src/dreamhost.rs lines 60-71): a desired record
synthesized from a resolved address; kind derived from the family, `svalue`
left empty. -/
def Record.new (value : IpAddr) : Record :=
  { value := value
    r_type := match value with
      | IpAddr.V6 _ => RecordKind.AAAA
      | IpAddr.V4 _ => RecordKind.A
    svalue := "" }

/-- Embeds `impl PartialEq for Record` (src/dreamhost.rs lines 74-78): the
equality used by the diff compares only `r_type` and `value`, never `svalue`. -/
def Record.diffEq (a b : Record) : Bool :=
  decide (a.r_type = b.r_type) && decide (a.value = b.value)

/-- The `(kind, value)` identity of a record, the projection under which the
spec's bags are compared. -/
def Record.key (r : Record) : RecordKind × IpAddr :=
  (r.r_type, r.value)

/-- Embeds the nested `retain` diff of `heartbeat` (src/main.rs lines 82-93).
The outer `retain` walks `home_ips` (desired) in order; for each desired
record the inner `retain` deletes from `dh_ips` (remote) every record that
compares `==` to it, and the desired record itself is kept only when nothing
was deleted. Returns (remaining desired, remaining remote). -/
def diffLoop : List Record → List Record → List Record × List Record
  | [], dh => ([], dh)
  | h :: hs, dh =>
    let deleted := dh.any (fun d => Record.diffEq d h)
    let dh2 := dh.filter (fun d => ! Record.diffEq d h)
    let res := diffLoop hs dh2
    (if deleted then res.1 else h :: res.1, res.2)

/-- Modelled from the spec: the one-to-one consumption step of section 4.1 -
search a desired list for the first as-yet-unconsumed record with equal
`(kind, value)` and consume exactly one matching instance. -/
def consumeOne : List Record → Record → Option (List Record)
  | [], _ => none
  | d :: ds, r =>
    if Record.diffEq d r then some ds
    else
      match consumeOne ds r with
      | some ds2 => some (d :: ds2)
      | none => none

/-- Modelled from the spec: the multiplicity-aware bag symmetric difference of
section 4.1 steps 2-4 as the spec words it - for each remote record in order,
consume exactly one matching desired record when one exists; remote records
left unconsumed become the removals, desired records left unconsumed become
the additions. Returns (toAdd, toRemove). -/
def specDiffOneToOne (remote desired : List Record) : List Record × List Record :=
  match remote with
  | [] => (desired, [])
  | r :: rs =>
    match consumeOne desired r with
    | some desired2 => specDiffOneToOne rs desired2
    | none =>
      let res := specDiffOneToOne rs desired
      (res.1, r :: res.2)

/-- Modelled from the spec as amended: walk the desired list in order with a
predicate telling which `(kind, value)` identities are still available on the
remote side; a desired record whose identity is available is discarded and
that identity becomes unavailable for later desired records (the code deletes
every remote copy of it at once), otherwise the desired record is a pending
addition. -/
def specAdds : List Record → (RecordKind × IpAddr → Bool) → List Record
  | [], _ => []
  | h :: hs, avail =>
    if avail h.key then specAdds hs (fun k => avail k && ! decide (k = h.key))
    else h :: specAdds hs avail

/-- Outcome oracle for the Dreamhost mutation calls: whether a given
`dns-remove_record` or `dns-add_record` call succeeds. Models the remote
authority's responses, which are outside the repository. -/
structure StoreOracle where
  removeOk : Record → Bool
  addOk : Record → Bool

/-- One attempted mutation against the record store, together with the
outcome the oracle reported for it. -/
inductive Op where
  | remove (r : Record) (ok : Bool)
  | add (r : Record) (ok : Bool)
deriving DecidableEq

/-- Embeds the removal loop of `heartbeat` (src/main.rs lines 105-110): every
record left in `dh_ips` is attempted; a failure is only logged, so the loop
always runs to completion. -/
def runRemoves (o : StoreOracle) (rs : List Record) : List Op :=
  rs.map (fun r => Op.remove r (o.removeOk r))

/-- Embeds the addition loop of `heartbeat` (src/main.rs lines 113-121):
additions are attempted in order; the first failure returns `false` from
`heartbeat` immediately, abandoning the rest. Returns the attempted
operations and the loop's success flag. -/
def runAdds (o : StoreOracle) : List Record → List Op × Bool
  | [] => ([], true)
  | r :: rs =>
    if o.addOk r then
      let res := runAdds o rs
      (Op.add r true :: res.1, res.2)
    else ([Op.add r false], false)

/-- Embeds `heartbeat` (src/main.rs lines 53-124). The resolver call and the
Dreamhost `list` call are collaborators: their results are passed in
(`none` models an `Err`). Returns the cycle's success flag and the trace of
mutation operations attempted against the record store, in order. -/
def heartbeat (resolverResult : Option (List IpAddr))
    (listResult : Option (List Record)) (o : StoreOracle) : Bool × List Op :=
  match resolverResult with
  | none => (false, [])
  | some addrs =>
    let home_ips := addrs.map Record.new
    if home_ips.isEmpty then (false, [])
    else
      match listResult with
      | none => (false, [])
      | some dh_ips =>
        let d := diffLoop home_ips dh_ips
        if d.2.isEmpty && d.1.isEmpty then (true, [])
        else
          let a := runAdds o d.1
          (a.2, runRemoves o d.2 ++ a.1)

/-- Wrap modulus of the `u32` arithmetic in `update_timer`. -/
def U32MOD : Nat := 4294967296

/-- Embeds `update_timer` (src/main.rs lines 126-138). The sleep bounds
`OPTS.min_sleep` and `OPTS.max_sleep` are the CLI configuration, passed here
as parameters; all three numeric inputs are `u32`, so the addition wraps
modulo 2^32 (release-profile semantics). -/
def update_timer (min_sleep_s max_sleep_s : Nat) (success : Bool)
    (last_s : Nat) : Nat :=
  if success then min_sleep_s
  else min ((last_s + min_sleep_s) % U32MOD) max_sleep_s

/-- Minimal model of a decoded `serde_json::Value` tree, as far as
`Dreamhost::list` inspects it. -/
inductive JValue where
  | str (s : String)
  | num (n : Int)
  | arr (xs : List JValue)
  | obj (fields : List (String × JValue))
  | null

/-- Serde's index operator `value[key]`: field lookup on an object, `Null`
on a missing field or a non-object. -/
def JValue.get : JValue → String → JValue
  | JValue.obj fields, k =>
    match fields.find? (fun f => f.1 == k) with
    | some f => f.2
    | none => JValue.null
  | _, _ => JValue.null

/-- Serde's `PartialEq<&str>` on `Value`: true exactly on an equal string. -/
def JValue.eqStr : JValue → String → Bool
  | JValue.str s, t => s == t
  | _, _ => false

/-- Serde's `Value::as_str`. -/
def JValue.asStr : JValue → Option String
  | JValue.str s => some s
  | _ => none

/-- Url scheme constant from src/dreamhost.rs. -/
def API_SCHEME : String := "https"

/-- Api host constant from src/dreamhost.rs. -/
def API_HOST : String := "api.dreamhost.com"

/-- Remove-command constant from src/dreamhost.rs. -/
def API_REMOVE_CMD : String := "dns-remove_record"

/-- Embeds the url built by `Dreamhost::remove` (src/dreamhost.rs lines
142-149): the `value=` parameter carries the record's `svalue` - the remote
authority's own textual form - never a rendering of the parsed `value`. -/
def removeUrl (apiKey ddnsHost : String) (r : Record) : String :=
  API_SCHEME ++ "://" ++ API_HOST ++ "/?cmd=" ++ API_REMOVE_CMD ++ "&key=" ++
    apiKey ++ "&type=" ++ r.r_type.toStr ++ "&value=" ++ r.svalue ++
    "&record=" ++ ddnsHost ++ "&format=json"

/-- Embeds `Dreamhost::remove` up to the point the request is issued
(src/dreamhost.rs lines 140-149): the `assert!` that `svalue` is non-empty is
modelled as `none` (the request is never issued), otherwise the request url
is produced. The HTTP round-trip itself is a collaborator. -/
def removeRequest (apiKey ddnsHost : String) (r : Record) : Option String :=
  if r.svalue.isEmpty then none
  else some (removeUrl apiKey ddnsHost r)

/-- Embeds the per-entry `filter_map` closure of `Dreamhost::list`
(src/dreamhost.rs lines 182-233). `parseIp` models `IpAddr::from_str` from
the standard library (a collaborator). Entries for another hostname or of a
type other than A/AAAA are skipped, and each malformed entry (non-string
value, non-string type, unrecognized type, unparsable address) is dropped
with a diagnostic, yielding `none`. -/
def listFilter (ddnsHost : String) (parseIp : String → Option IpAddr)
    (entry : JValue) : Option Record :=
  if ! (entry.get "record").eqStr ddnsHost ||
      (! (entry.get "type").eqStr "A" && ! (entry.get "type").eqStr "AAAA") then
    none
  else
    match entry.get "value" with
    | JValue.str ip =>
      match (entry.get "type").asStr with
      | some r_type_s =>
        match RecordKind.fromStr r_type_s with
        | Except.ok r_type =>
          match parseIp ip with
          | some value =>
            match (entry.get "value").asStr with
            | some svalue =>
              some { value := value, r_type := r_type, svalue := svalue }
            | none => none
          | none => none
        | Except.error _ => none
      | none => none
    | _ => none

/-- Embeds `Dreamhost::list` (src/dreamhost.rs lines 161-234) after the HTTP
round-trip: given the decoded response tree, fail on a non-success result or
a non-array `data` field, otherwise keep the well-formed matching entries. -/
def dreamhostList (ddnsHost : String) (parseIp : String → Option IpAddr)
    (resp : JValue) : Except String (List Record) :=
  if ! (resp.get "result").eqStr "success" then
    Except.error "Non-success result reading from dreamhost API"
  else
    match resp.get "data" with
    | JValue.arr entries =>
      Except.ok (entries.filterMap (listFilter ddnsHost parseIp))
    | _ => Except.error "data field was not array-type"

/-- True on an `add` operation. -/
def Op.isAdd : Op → Bool
  | Op.add _ _ => true
  | Op.remove _ _ => false

/-- True on a `remove` operation. -/
def Op.isRemove : Op → Bool
  | Op.remove _ _ => true
  | Op.add _ _ => false

/-- Holds when every removal in the trace is attempted before any addition:
after the leading removals, only additions remain. -/
def removesBeforeAdds (l : List Op) : Bool :=
  (l.dropWhile Op.isRemove).all Op.isAdd

/-- Forgets the outcome of an operation, keeping which call was made (add or
remove) on which record. -/
def opView : Op → Bool × Record
  | Op.remove r _ => (false, r)
  | Op.add r _ => (true, r)

/-- Bag equality under `(kind, value)`: the two lists of records are
permutations of one another after projecting each record to its identity. -/
def bagEq (xs ys : List Record) : Prop :=
  List.Perm (xs.map Record.key) (ys.map Record.key)

instance (xs ys : List Record) : Decidable (bagEq xs ys) :=
  inferInstanceAs (Decidable (List.Perm (xs.map Record.key) (ys.map Record.key)))

/-- Concrete oracle on which every mutation succeeds, used to evaluate the
loop on concrete inputs. -/
def oracleAllOk : StoreOracle :=
  { removeOk := fun _ => true, addOk := fun _ => true }

/-- Concrete oracle on which every addition fails, used to evaluate the
addition-failure path on concrete inputs. -/
def oracleAddFails : StoreOracle :=
  { removeOk := fun _ => true, addOk := fun _ => false }

/-- Concrete oracle on which every removal fails but every addition succeeds,
used to evaluate the removal-failure path on concrete inputs. -/
def oracleRemoveFails : StoreOracle :=
  { removeOk := fun _ => false, addOk := fun _ => true }

/-- Concrete model of `IpAddr::from_str` used on concrete inputs: recognizes
the single literal the concrete fixtures use and rejects (in particular) the
empty string, as the real parser does. -/
def parseIpC (s : String) : Option IpAddr :=
  if s == "1.2.3.4" then some (IpAddr.V4 1) else none

/-- Concrete well-formed listing entry for the managed hostname. -/
def goodEntryC : JValue :=
  JValue.obj [("record", JValue.str "h.example"), ("type", JValue.str "A"),
    ("value", JValue.str "1.2.3.4")]

/-- Concrete malformed listing entry: matches the hostname and type but its
value does not parse as an address. -/
def badEntryC : JValue :=
  JValue.obj [("record", JValue.str "h.example"), ("type", JValue.str "A"),
    ("value", JValue.str "nope")]

/-- Concrete successful listing response holding one well-formed and one
malformed entry. -/
def respC : JValue :=
  JValue.obj [("result", JValue.str "success"),
    ("data", JValue.arr [goodEntryC, badEntryC])]

/-- The record the concrete listing response yields. -/
def dhRecC : Record :=
  { value := IpAddr.V4 1, r_type := RecordKind.A, svalue := "1.2.3.4" }

/- ===================== theorems ===================== -/

/-- The diffing equality compares exactly the `(kind, value)` identity. -/
theorem Record.diffEq_key (a b : Record) :
    Record.diffEq a b = decide (a.key = b.key) := by
  by_cases h1 : a.r_type = b.r_type <;> by_cases h2 : a.value = b.value <;>
    simp [Record.diffEq, Record.key, h1, h2]

/-- C1: if the resolver yields an empty address set, the cycle fails at once,
before the record store is even listed, and no remove or add operation is
attempted - an empty desired set is never turned into deletions. -/
theorem heartbeat_empty_desired_no_mutation (listResult : Option (List Record))
    (o : StoreOracle) : heartbeat (some []) listResult o = (false, []) := rfl

/-- C3 counterexample: at previousDelay = 4294967295 (u32 max), minDelay = 1,
maxDelay = 100, the wrapped u32 sum is 0 and the scheduler returns 0, not the
claimed min(previousDelay + minDelay, maxDelay) = 100. -/
theorem update_timer_overflow_cx :
    update_timer 1 100 false 4294967295 = 0 ∧
    update_timer 1 100 false 4294967295 ≠ min (4294967295 + 1) 100 := by
  constructor
  · decide
  · decide

/-- C3 (amended): provided previousDelay + minDelay does not overflow u32,
the scheduler returns exactly minDelay on success and exactly
min(previousDelay + minDelay, maxDelay) on failure. -/
theorem update_timer_formula (minD maxD prev : Nat) (h : prev + minD < U32MOD) :
    update_timer minD maxD true prev = minD ∧
    update_timer minD maxD false prev = min (prev + minD) maxD := by
  refine ⟨rfl, ?_⟩
  simp [update_timer, Nat.mod_eq_of_lt h]

/-- C3 witness: the amended formula evaluated at the repository's default
bounds minDelay = 40, maxDelay = 1800, previousDelay = 0. -/
theorem update_timer_formula_witness :
    0 + 40 < U32MOD ∧
    (update_timer 40 1800 true 0 = 40 ∧
      update_timer 40 1800 false 0 = min (0 + 40) 1800) :=
  ⟨by decide, update_timer_formula 40 1800 0 (by decide)⟩

/-- C4 counterexample: with minDelay = 100, maxDelay = 50 and
previousDelay = 100 (reachable: a success returns minDelay = 100 > maxDelay),
a failure returns 50, strictly below the previous delay - the claimed
never-decreases-on-failure property fails. -/
theorem update_timer_decrease_cx :
    update_timer 100 50 false 100 = 50 ∧
    ¬ 100 ≤ update_timer 100 50 false 100 := by
  constructor
  · decide
  · decide

/-- C4 (amended): provided previousDelay ≤ maxDelay and the u32 sum
previousDelay + minDelay does not overflow, a failure yields a delay between
the previous delay and maxDelay (monotone climb, saturating at the ceiling),
and a success resets to exactly minDelay. -/
theorem update_timer_bounds (minD maxD prev : Nat) (h1 : prev ≤ maxD)
    (h2 : prev + minD < U32MOD) :
    prev ≤ update_timer minD maxD false prev ∧
    update_timer minD maxD false prev ≤ maxD ∧
    update_timer minD maxD true prev = minD := by
  refine ⟨?_, ?_, rfl⟩
  · simp only [update_timer, Bool.false_eq_true, if_false, Nat.mod_eq_of_lt h2]
    exact le_min (Nat.le_add_right _ _) h1
  · simp only [update_timer, Bool.false_eq_true, if_false, Nat.mod_eq_of_lt h2]
    exact min_le_right _ _

/-- C4 witness: the amended bounds evaluated at minDelay = 40,
maxDelay = 1800, previousDelay = 0. -/
theorem update_timer_bounds_witness :
    (0 ≤ 1800 ∧ 0 + 40 < U32MOD) ∧
    (0 ≤ update_timer 40 1800 false 0 ∧
      update_timer 40 1800 false 0 ≤ 1800 ∧
      update_timer 40 1800 true 0 = 40) :=
  ⟨⟨by decide, by decide⟩, update_timer_bounds 40 1800 0 (by decide) (by decide)⟩

/-- The nested-retain diff leaves on the remote side exactly the remote
records whose `(kind, value)` identity matches no desired record at all:
remote multiplicities are not paired one-to-one. -/
theorem diffLoop_snd (home dh : List Record) :
    (diffLoop home dh).2 =
      dh.filter (fun d => ! home.any (fun x => Record.diffEq d x)) := by
  induction home generalizing dh with
  | nil => simp [diffLoop]
  | cons h hs ih =>
    simp only [diffLoop]
    rw [ih, List.filter_filter]
    congr 1
    funext d
    simp [Bool.not_or, Bool.and_comm]

/-- Helper: `any` over a filtered list folds the filter into the predicate. -/
theorem any_filter (l : List Record) (p q : Record → Bool) :
    (l.filter p).any q = l.any (fun a => p a && q a) := by
  induction l with
  | nil => rfl
  | cons x xs ih =>
    by_cases hx : p x = true <;> simp [List.filter_cons, hx, ih]

/-- The nested-retain diff keeps as pending additions exactly the desired
records computed by the availability recursion `specAdds`: a desired record
is discarded when its identity is still available remotely, and that
discards every remote copy of the identity at once. -/
theorem diffLoop_fst (home dh : List Record) :
    (diffLoop home dh).1 =
      specAdds home (fun k => dh.any (fun d => decide (d.key = k))) := by
  induction home generalizing dh with
  | nil => simp [diffLoop, specAdds]
  | cons h hs ih =>
    simp only [diffLoop, specAdds]
    have hpt : (fun d => Record.diffEq d h) = (fun d => decide (d.key = h.key)) :=
      funext fun d => Record.diffEq_key d h
    by_cases hdel : dh.any (fun d => Record.diffEq d h) = true
    · rw [if_pos hdel, if_pos (by rw [← hpt]; exact hdel)]
      rw [ih]
      congr 1
      funext k
      rw [any_filter]
      by_cases hk : k = h.key
      · subst hk
        simp only [Record.diffEq_key]
        simp
      · have hkd : (decide (k = h.key)) = false := by simp [hk]
        rw [hkd]
        simp only [Bool.not_false, Bool.and_true]
        rw [Bool.eq_iff_iff]
        simp only [List.any_eq_true, Bool.and_eq_true, Bool.not_eq_true',
          decide_eq_true_eq]
        constructor
        · rintro ⟨d, hd, _, hdk⟩
          exact ⟨d, hd, hdk⟩
        · rintro ⟨d, hd, hdk⟩
          refine ⟨d, hd, ?_, hdk⟩
          rw [Record.diffEq_key]
          simp [hdk, hk]
    · rw [if_neg hdel, if_neg (by rw [← hpt]; exact hdel)]
      have hself : dh.filter (fun d => ! Record.diffEq d h) = dh := by
        rw [List.filter_eq_self]
        intro a ha
        simp only [Bool.not_eq_true']
        exact Bool.eq_false_iff.mpr fun hC =>
          hdel (List.any_eq_true.mpr ⟨a, ha, hC⟩)
      rw [hself, ih]

/-- C2 counterexample: with the remote bag holding the same address twice
(handles "a" and "b") and the desired bag holding it once, the code's diff
removes nothing from the remote side, while the spec's one-to-one consumption
algorithm leaves exactly one remote copy to remove. -/
theorem diff_not_one_to_one_cx :
    (diffLoop [Record.new (IpAddr.V4 1)]
      [{ value := IpAddr.V4 1, r_type := RecordKind.A, svalue := "a" },
       { value := IpAddr.V4 1, r_type := RecordKind.A, svalue := "b" }]).2 = [] ∧
    (specDiffOneToOne
      [{ value := IpAddr.V4 1, r_type := RecordKind.A, svalue := "a" },
       { value := IpAddr.V4 1, r_type := RecordKind.A, svalue := "b" }]
      [Record.new (IpAddr.V4 1)]).2 =
      [{ value := IpAddr.V4 1, r_type := RecordKind.A, svalue := "b" }] := by
  constructor
  · decide
  · decide

/-- C2 (amended): for every desired and remote bag, each desired record
(processed in order) consumes every as-yet-unconsumed remote record with equal
`(kind, value)` and is itself discarded when at least one was consumed; the
removals are exactly the remote records whose identity appears nowhere in the
desired bag, and the additions are exactly the desired records left by the
availability recursion - so matching is not one-to-one on the remote side. -/
theorem diff_consume_all (home dh : List Record) :
    (diffLoop home dh).1 =
      specAdds home (fun k => dh.any (fun d => decide (d.key = k))) ∧
    (diffLoop home dh).2 =
      dh.filter (fun d => ! home.any (fun x => Record.diffEq d x)) :=
  ⟨diffLoop_fst home dh, diffLoop_snd home dh⟩

/-- When the desired bag has pairwise distinct identities and is bag-equal to
the remote bag, the nested-retain diff empties both sides. -/
theorem diffLoop_bagEq_nodup (home dh : List Record)
    (hnd : (home.map Record.key).Nodup)
    (hperm : List.Perm (home.map Record.key) (dh.map Record.key)) :
    diffLoop home dh = ([], []) := by
  induction home generalizing dh with
  | nil =>
    have h1 : dh.map Record.key = [] := (hperm.symm).eq_nil
    have h2 : dh = [] := List.map_eq_nil_iff.mp h1
    subst h2
    rfl
  | cons h hs ih =>
    have hmem : h.key ∈ dh.map Record.key := hperm.mem_iff.mp (by simp)
    have hdel : dh.any (fun d => Record.diffEq d h) = true := by
      obtain ⟨d, hd, hk⟩ := List.mem_map.mp hmem
      exact List.any_eq_true.mpr ⟨d, hd, by rw [Record.diffEq_key]; simp [hk]⟩
    have hnotin : h.key ∉ hs.map Record.key := (List.nodup_cons.mp hnd).1
    have hmap : (dh.filter (fun d => ! Record.diffEq d h)).map Record.key
        = (dh.map Record.key).filter (fun k => ! decide (k = h.key)) := by
      rw [List.filter_map]
      have hfun : (fun d => ! Record.diffEq d h)
          = ((fun k => ! decide (k = h.key)) ∘ Record.key) := by
        funext d
        simp only [Function.comp_apply]
        rw [Record.diffEq_key]
      rw [hfun]
    have hperm2 : List.Perm (hs.map Record.key)
        ((dh.filter (fun d => ! Record.diffEq d h)).map Record.key) := by
      rw [hmap]
      have hstep := hperm.filter (fun k => ! decide (k = h.key))
      rw [List.map_cons, List.filter_cons] at hstep
      simp only [decide_True, Bool.not_true] at hstep
      rw [if_neg (by simp)] at hstep
      have hself : (hs.map Record.key).filter (fun k => ! decide (k = h.key))
          = hs.map Record.key := by
        rw [List.filter_eq_self]
        intro k hkmem
        simp only [Bool.not_eq_true', decide_eq_false_iff_not]
        exact fun hC => hnotin (hC ▸ hkmem)
      rw [hself] at hstep
      exact hstep
    have hres := ih (dh.filter (fun d => ! Record.diffEq d h))
      (List.nodup_cons.mp hnd).2 hperm2
    simp only [diffLoop, hdel, if_pos, hres]

/-- C5 counterexample: desired and remote are equal as bags under
`(kind, value)` (the same address twice on each side), yet the cycle issues
a mutation - the duplicated desired address survives the diff and is added. -/
theorem bag_equal_plan_nonempty_cx :
    bagEq [Record.new (IpAddr.V4 1), Record.new (IpAddr.V4 1)]
      [{ value := IpAddr.V4 1, r_type := RecordKind.A, svalue := "a" },
       { value := IpAddr.V4 1, r_type := RecordKind.A, svalue := "b" }] ∧
    (heartbeat (some [IpAddr.V4 1, IpAddr.V4 1])
      (some [{ value := IpAddr.V4 1, r_type := RecordKind.A, svalue := "a" },
             { value := IpAddr.V4 1, r_type := RecordKind.A, svalue := "b" }])
      oracleAllOk).2 ≠ [] := by
  constructor
  · decide
  · decide

/-- C5 (amended): when the desired set is non-empty, its `(kind, value)`
identities are pairwise distinct, and the two sides are equal as bags under
`(kind, value)`, the diff empties both sides, no removal or addition is
issued and the cycle succeeds. -/
theorem bag_equal_nodup_noop (ips : List IpAddr) (dh : List Record)
    (o : StoreOracle) (hne : ips ≠ [])
    (hnd : ((ips.map Record.new).map Record.key).Nodup)
    (hperm : bagEq (ips.map Record.new) dh) :
    diffLoop (ips.map Record.new) dh = ([], []) ∧
    heartbeat (some ips) (some dh) o = (true, []) := by
  have hd := diffLoop_bagEq_nodup _ _ hnd hperm
  refine ⟨hd, ?_⟩
  have hm : (ips.map Record.new).isEmpty = false := by
    rw [Bool.eq_false_iff]
    intro hC
    exact hne (List.map_eq_nil_iff.mp (List.isEmpty_iff.mp hC))
  simp [heartbeat, hm, hd]

/-- C5 witness: the amended no-op property evaluated at one desired address
matching one remote record. -/
theorem bag_equal_nodup_noop_witness :
    ([IpAddr.V4 1] ≠ ([] : List IpAddr) ∧
      (([IpAddr.V4 1].map Record.new).map Record.key).Nodup ∧
      bagEq ([IpAddr.V4 1].map Record.new)
        [{ value := IpAddr.V4 1, r_type := RecordKind.A, svalue := "a" }]) ∧
    (diffLoop ([IpAddr.V4 1].map Record.new)
        [{ value := IpAddr.V4 1, r_type := RecordKind.A, svalue := "a" }] =
        ([], []) ∧
      heartbeat (some [IpAddr.V4 1])
        (some [{ value := IpAddr.V4 1, r_type := RecordKind.A, svalue := "a" }])
        oracleAllOk = (true, [])) :=
  ⟨⟨by decide, by decide, by decide⟩,
    bag_equal_nodup_noop [IpAddr.V4 1] _ oracleAllOk (by decide) (by decide)
      (by decide)⟩

/-- Helper: every heartbeat either attempts no mutation at all, or its trace
is the full removal pass over the diff's remote leftovers followed by the
addition pass over the diff's desired leftovers. -/
theorem heartbeat_cases (rr : Option (List IpAddr)) (lr : Option (List Record))
    (o : StoreOracle) :
    (heartbeat rr lr o).2 = [] ∨
    ∃ addrs dh, rr = some addrs ∧ lr = some dh ∧
      (heartbeat rr lr o).2 =
        runRemoves o (diffLoop (addrs.map Record.new) dh).2 ++
          (runAdds o (diffLoop (addrs.map Record.new) dh).1).1 := by
  cases rr with
  | none => left; rfl
  | some addrs =>
    by_cases hm : (addrs.map Record.new).isEmpty = true
    · left
      simp [heartbeat, hm]
    · cases lr with
      | none =>
        left
        simp [heartbeat, hm]
      | some dh =>
        by_cases hud : ((diffLoop (addrs.map Record.new) dh).2.isEmpty &&
            (diffLoop (addrs.map Record.new) dh).1.isEmpty) = true
        · left
          simp only [heartbeat, Bool.not_eq_true] at *
          simp [hm, hud]
        · right
          refine ⟨addrs, dh, rfl, rfl, ?_⟩
          simp only [heartbeat, Bool.not_eq_true] at *
          simp [hm, hud]

/-- Helper: the addition pass only produces `add` operations. -/
theorem runAdds_all_isAdd (o : StoreOracle) (l : List Record) :
    (runAdds o l).1.all Op.isAdd = true := by
  induction l with
  | nil => rfl
  | cons r rs ih =>
    by_cases hx : o.addOk r = true
    · simp [runAdds, hx, Op.isAdd, ih]
    · simp only [Bool.not_eq_true] at hx
      simp [runAdds, hx, Op.isAdd]

/-- Helper: a removal pass followed by add-only operations satisfies the
removals-before-additions ordering. -/
theorem removesBeforeAdds_shape (o : StoreOracle) (rs : List Record)
    (adds : List Op) (h : adds.all Op.isAdd = true) :
    removesBeforeAdds (runRemoves o rs ++ adds) = true := by
  induction rs with
  | nil =>
    cases adds with
    | nil => rfl
    | cons a as =>
      have ha : Op.isRemove a = false := by
        cases a with
        | remove r b => simp [Op.isAdd, List.all_cons] at h
        | add r b => rfl
      simp only [runRemoves, List.map_nil, List.nil_append, removesBeforeAdds,
        List.dropWhile_cons, ha]
      simpa using h
  | cons r rest ih =>
    simpa [runRemoves, removesBeforeAdds, List.dropWhile_cons, Op.isRemove]
      using ih

/-- C6: in every executed cycle, every removal operation is attempted before
any addition operation is attempted. -/
theorem removals_before_additions (rr : Option (List IpAddr))
    (lr : Option (List Record)) (o : StoreOracle) :
    removesBeforeAdds (heartbeat rr lr o).2 = true := by
  rcases heartbeat_cases rr lr o with h | ⟨addrs, dh, _, _, h⟩
  · rw [h]
    rfl
  · rw [h]
    exact removesBeforeAdds_shape o _ _ (runAdds_all_isAdd o _)

/-- Helper: the addition pass depends only on the addition outcomes. -/
theorem runAdds_congr (o o2 : StoreOracle) (h : o.addOk = o2.addOk)
    (l : List Record) : runAdds o l = runAdds o2 l := by
  induction l with
  | nil => rfl
  | cons r rs ih =>
    simp only [runAdds, h, ih]

/-- Helper: the addition pass on a list whose prefix succeeds and whose next
record fails attempts exactly the prefix plus the failing record, then
reports failure. -/
theorem runAdds_fail (o : StoreOracle) (pre : List Record) (r : Record)
    (post : List Record) (hpre : ∀ x ∈ pre, o.addOk x = true)
    (hr : o.addOk r = false) :
    runAdds o (pre ++ r :: post) =
      (pre.map (fun x => Op.add x true) ++ [Op.add r false], false) := by
  induction pre with
  | nil => simp [runAdds, hr]
  | cons p ps ih =>
    have hp : o.addOk p = true := hpre p (by simp)
    simp [runAdds, hp, ih (fun x hx => hpre x (by simp [hx]))]

/-- C7: removal outcomes never influence the cycle - with the same addition
outcomes, the cycle result and the attempted operations are identical
whatever the removal outcomes (each removal failure is merely logged and the
rest proceeds); and when the diff leaves additions whose prefix succeeds and
whose next record fails to add, the cycle attempts all removals, the
succeeding prefix and the failing addition, abandons the remaining additions,
and reports failure. -/
theorem removal_nonfatal_addition_fatal :
    (∀ (rr : Option (List IpAddr)) (lr : Option (List Record))
        (o o2 : StoreOracle), o.addOk = o2.addOk →
      (heartbeat rr lr o).1 = (heartbeat rr lr o2).1 ∧
      (heartbeat rr lr o).2.map opView = (heartbeat rr lr o2).2.map opView) ∧
    (∀ (ips : List IpAddr) (dh : List Record) (o : StoreOracle)
        (pre post dhr : List Record) (r : Record),
      ips ≠ [] →
      diffLoop (ips.map Record.new) dh = (pre ++ r :: post, dhr) →
      (∀ x ∈ pre, o.addOk x = true) → o.addOk r = false →
      heartbeat (some ips) (some dh) o =
        (false, runRemoves o dhr ++
          (pre.map (fun x => Op.add x true) ++ [Op.add r false]))) := by
  constructor
  · intro rr lr o o2 hoo
    cases rr with
    | none => exact ⟨rfl, rfl⟩
    | some addrs =>
      by_cases hm : (addrs.map Record.new).isEmpty = true
      · constructor <;> simp [heartbeat, hm]
      · cases lr with
        | none => constructor <;> simp [heartbeat, hm]
        | some dh =>
          have hra := runAdds_congr o o2 hoo
            (diffLoop (addrs.map Record.new) dh).1
          by_cases hud : ((diffLoop (addrs.map Record.new) dh).2.isEmpty &&
              (diffLoop (addrs.map Record.new) dh).1.isEmpty) = true
          · constructor <;>
              (simp only [heartbeat, Bool.not_eq_true] at *; simp [hm, hud])
          · constructor <;>
              (simp only [heartbeat, Bool.not_eq_true] at *
               simp [hm, hud, hra, runRemoves, List.map_map, Function.comp,
                 opView])
  · intro ips dh o pre post dhr r hne hdiff hpre hr
    have hm : (ips.map Record.new).isEmpty = false := by
      rw [Bool.eq_false_iff]
      intro hC
      exact hne (List.map_eq_nil_iff.mp (List.isEmpty_iff.mp hC))
    have hud : ((diffLoop (ips.map Record.new) dh).2.isEmpty &&
        (diffLoop (ips.map Record.new) dh).1.isEmpty) = false := by
      rw [hdiff]
      simp
    simp only [heartbeat, hm, Bool.false_eq_true, if_false, hud, hdiff,
      runAdds_fail o pre r post hpre hr]
    simp

/-- C7 witness: removal outcomes do not change the cycle on a concrete input
(all removals failing versus all succeeding), and a concrete failing addition
aborts the cycle after all removals were attempted. -/
theorem removal_nonfatal_addition_fatal_witness :
    (oracleAllOk.addOk = oracleRemoveFails.addOk ∧
      (heartbeat (some [IpAddr.V4 2]) (some [dhRecC]) oracleAllOk).1 =
        (heartbeat (some [IpAddr.V4 2]) (some [dhRecC]) oracleRemoveFails).1 ∧
      (heartbeat (some [IpAddr.V4 2]) (some [dhRecC]) oracleAllOk).2.map
          opView =
        (heartbeat (some [IpAddr.V4 2]) (some [dhRecC])
          oracleRemoveFails).2.map opView) ∧
    ([IpAddr.V4 2] ≠ ([] : List IpAddr) ∧
      diffLoop ([IpAddr.V4 2].map Record.new) [dhRecC] =
        ([] ++ Record.new (IpAddr.V4 2) :: [], [dhRecC]) ∧
      oracleAddFails.addOk (Record.new (IpAddr.V4 2)) = false) ∧
    heartbeat (some [IpAddr.V4 2]) (some [dhRecC]) oracleAddFails =
      (false, runRemoves oracleAddFails [dhRecC] ++
        (([] : List Record).map (fun x => Op.add x true) ++
          [Op.add (Record.new (IpAddr.V4 2)) false])) :=
  ⟨⟨rfl,
      (removal_nonfatal_addition_fatal.1 (some [IpAddr.V4 2])
        (some [dhRecC]) oracleAllOk oracleRemoveFails rfl).1,
      (removal_nonfatal_addition_fatal.1 (some [IpAddr.V4 2])
        (some [dhRecC]) oracleAllOk oracleRemoveFails rfl).2⟩,
    ⟨by decide, by decide, rfl⟩,
    removal_nonfatal_addition_fatal.2 [IpAddr.V4 2] [dhRecC] oracleAddFails
      [] [] [dhRecC] (Record.new (IpAddr.V4 2)) (by decide) (by decide)
      (by simp) rfl⟩

/-- C8: the diffing equality holds exactly when `(kind, value)` agree and
ignores the remote textual form entirely, while the removal request is
independent of the parsed `value` and transmits the record's original remote
string `svalue` verbatim inside the request url. -/
theorem diff_eq_ignores_handle_remove_uses_handle (a b : Record)
    (s1 s2 apiKey ddnsHost : String) (r : Record) (v : IpAddr)
    (hr : r.svalue.isEmpty = false) :
    (Record.diffEq a b = true ↔ a.r_type = b.r_type ∧ a.value = b.value) ∧
    (Record.diffEq { a with svalue := s1 } { b with svalue := s2 } =
      Record.diffEq a b) ∧
    (removeRequest apiKey ddnsHost { r with value := v } =
      removeRequest apiKey ddnsHost r) ∧
    (∃ p q, removeRequest apiKey ddnsHost r = some (p ++ r.svalue ++ q)) := by
  refine ⟨by simp [Record.diffEq], rfl, rfl, ?_⟩
  refine ⟨API_SCHEME ++ "://" ++ API_HOST ++ "/?cmd=" ++ API_REMOVE_CMD ++
    "&key=" ++ apiKey ++ "&type=" ++ r.r_type.toStr ++ "&value=",
    "&record=" ++ ddnsHost ++ "&format=json", ?_⟩
  rw [removeRequest, if_neg (by simp [hr]), removeUrl]
  simp [String.append_assoc]

/-- C8 witness: the conjunction evaluated at a concrete listed record with a
non-empty remote string. -/
theorem diff_eq_ignores_handle_remove_uses_handle_witness :
    dhRecC.svalue.isEmpty = false ∧
    (∃ p q, removeRequest "key" "h.example" dhRecC =
      some (p ++ dhRecC.svalue ++ q)) :=
  ⟨by decide,
    (diff_eq_ignores_handle_remove_uses_handle dhRecC dhRecC "x" "y" "key"
      "h.example" dhRecC (IpAddr.V6 5) (by decide)).2.2.2⟩

/-- C9: on a successful response whose data field is an array, the list
operation succeeds and returns exactly the well-formed entries; a record is
only ever produced from an entry whose hostname matches the managed hostname
and whose type is A or AAAA; and dropping a malformed entry gives the same
output as if the entry were absent, so a malformed entry never fails the
call. -/
theorem list_filters_and_recovers (ddnsHost : String)
    (parseIp : String → Option IpAddr) (resp : JValue) (entries : List JValue)
    (bad : JValue) (pre post : List JValue)
    (hok : (resp.get "result").eqStr "success" = true)
    (hdata : resp.get "data" = JValue.arr entries)
    (hbad : listFilter ddnsHost parseIp bad = none) :
    dreamhostList ddnsHost parseIp resp =
      Except.ok (entries.filterMap (listFilter ddnsHost parseIp)) ∧
    (∀ entry r, listFilter ddnsHost parseIp entry = some r →
      (entry.get "record").eqStr ddnsHost = true ∧
      ((entry.get "type").eqStr "A" || (entry.get "type").eqStr "AAAA") =
        true) ∧
    (pre ++ bad :: post).filterMap (listFilter ddnsHost parseIp) =
      (pre ++ post).filterMap (listFilter ddnsHost parseIp) := by
  refine ⟨?_, ?_, ?_⟩
  · simp [dreamhostList, hok, hdata]
  · intro entry r hsome
    rw [listFilter] at hsome
    split at hsome
    · exact absurd hsome (by simp)
    · rename_i hguard
      revert hguard
      cases hrec : (entry.get "record").eqStr ddnsHost <;>
        cases hA : (entry.get "type").eqStr "A" <;>
          cases hB : (entry.get "type").eqStr "AAAA" <;> simp
  · simp [List.filterMap_append, List.filterMap_cons, hbad]

/-- C9 witness: the list contract evaluated on a concrete response holding
one well-formed entry and one entry with an unparsable address. -/
theorem list_filters_and_recovers_witness :
    ((respC.get "result").eqStr "success" = true ∧
      respC.get "data" = JValue.arr [goodEntryC, badEntryC] ∧
      listFilter "h.example" parseIpC badEntryC = none) ∧
    dreamhostList "h.example" parseIpC respC = Except.ok [dhRecC] ∧
    ((goodEntryC.get "record").eqStr "h.example" = true ∧
      ((goodEntryC.get "type").eqStr "A" ||
        (goodEntryC.get "type").eqStr "AAAA") = true) ∧
    ([goodEntryC] ++ badEntryC :: []).filterMap
        (listFilter "h.example" parseIpC) =
      ([goodEntryC] ++ []).filterMap (listFilter "h.example" parseIpC) :=
  ⟨⟨rfl, rfl, rfl⟩,
    (list_filters_and_recovers "h.example" parseIpC respC
        [goodEntryC, badEntryC] badEntryC [goodEntryC] [] rfl rfl rfl).1,
    (list_filters_and_recovers "h.example" parseIpC respC
        [goodEntryC, badEntryC] badEntryC [goodEntryC] [] rfl rfl rfl).2.1
      goodEntryC dhRecC rfl,
    (list_filters_and_recovers "h.example" parseIpC respC
        [goodEntryC, badEntryC] badEntryC [goodEntryC] [] rfl rfl rfl).2.2⟩

/-- Helper: the addition pass never produces a `remove` operation. -/
theorem runAdds_no_remove (o : StoreOracle) (l : List Record) (r : Record)
    (b : Bool) : Op.remove r b ∉ (runAdds o l).1 := by
  induction l with
  | nil => simp [runAdds]
  | cons x xs ih =>
    by_cases hx : o.addOk x = true
    · simp only [runAdds, hx, if_true, List.mem_cons]
      rintro (hC | hC)
      · cases hC
      · exact ih hC
    · simp only [Bool.not_eq_true] at hx
      simp [runAdds, hx]

/-- Helper: any record the heartbeat attempts to remove came from the listing
the heartbeat was given. -/
theorem heartbeat_remove_mem (rr : Option (List IpAddr)) (dh : List Record)
    (o : StoreOracle) (r : Record) (b : Bool)
    (h : Op.remove r b ∈ (heartbeat rr (some dh) o).2) : r ∈ dh := by
  rcases heartbeat_cases rr (some dh) o with hsh | ⟨addrs, dh2, _, hl, hsh⟩
  · rw [hsh] at h
    cases h
  · have hdh : dh2 = dh := by injection hl with hl2; exact hl2.symm
    subst hdh
    rw [hsh] at h
    rcases List.mem_append.mp h with h1 | h2
    · obtain ⟨x, hx, hxe⟩ := List.mem_map.mp h1
      have hxr : x = r := by injection hxe with h1 h2
      subst hxr
      rw [diffLoop_snd] at hx
      exact (List.mem_filter.mp hx).1
    · exact absurd h2 (runAdds_no_remove o _ r b)

/-- Helper: a record produced by the listing filter carries as `svalue` the
very string its `value` was parsed from. -/
theorem listFilter_svalue_parses (ddnsHost : String)
    (parseIp : String → Option IpAddr) (entry : JValue) (r : Record)
    (h : listFilter ddnsHost parseIp entry = some r) :
    parseIp r.svalue = some r.value := by
  rw [listFilter] at h
  split at h
  · exact absurd h (by simp)
  · split at h <;> try exact absurd h (by simp)
    rename_i ip heq
    split at h <;> try exact absurd h (by simp)
    rename_i r_type_s heq2
    split at h <;> try exact absurd h (by simp)
    rename_i r_type heq3
    split at h <;> try exact absurd h (by simp)
    rename_i value heq4
    split at h
    · rename_i svalue heq5
      injection h with h
      subst h
      rw [heq] at heq5
      simp only [JValue.asStr] at heq5
      injection heq5 with heq5
      subst heq5
      exact heq4
    · exact absurd h (by simp)

/-- C10: provided the address parser rejects the empty string (as
`IpAddr::from_str` does), every record the heartbeat attempts to remove out
of a listing produced by the list filter carries a non-empty `svalue`, so the
assertion guarding `Dreamhost::remove` cannot fire and the request is always
issued. -/
theorem listed_records_removable (apiKey ddnsHost : String)
    (parseIp : String → Option IpAddr) (entries : List JValue)
    (rr : Option (List IpAddr)) (o : StoreOracle) (r : Record) (b : Bool)
    (hp : parseIp "" = none)
    (hmem : Op.remove r b ∈
      (heartbeat rr (some (entries.filterMap (listFilter ddnsHost parseIp)))
        o).2) :
    r.svalue.isEmpty = false ∧
    removeRequest apiKey ddnsHost r = some (removeUrl apiKey ddnsHost r) := by
  have hdh := heartbeat_remove_mem rr _ o r b hmem
  obtain ⟨e, _, hsome⟩ := List.mem_filterMap.mp hdh
  have hps := listFilter_svalue_parses _ _ _ _ hsome
  have hne : r.svalue ≠ "" := by
    intro hC
    rw [hC, hp] at hps
    cases hps
  have hie : r.svalue.isEmpty = false :=
    Bool.eq_false_iff.mpr fun hC => hne ((String.isEmpty_iff _).mp hC)
  exact ⟨hie, by rw [removeRequest, if_neg (by simp [hie])]⟩

/-- C10 witness: on a concrete listing and a concrete cycle that removes the
listed record, the removal request is issued. -/
theorem listed_records_removable_witness :
    (parseIpC "" = none ∧
      Op.remove dhRecC true ∈
        (heartbeat (some [IpAddr.V4 2])
          (some ([goodEntryC, badEntryC].filterMap
            (listFilter "h.example" parseIpC))) oracleAllOk).2) ∧
    (dhRecC.svalue.isEmpty = false ∧
      removeRequest "key" "h.example" dhRecC =
        some (removeUrl "key" "h.example" dhRecC)) :=
  ⟨⟨rfl, by decide⟩,
    listed_records_removable "key" "h.example" parseIpC
      [goodEntryC, badEntryC] (some [IpAddr.V4 2]) oracleAllOk dhRecC true
      rfl (by decide)⟩

end DDNS
